import Mathlib

/-!
Shallow embedding of `scripts/autotile47.py` (47-tile blob autotile generator)
and proofs about its specification claims.

Modelling conventions:
* Python non-negative ints are `ℕ`; the CLI seed (which may be negative) is `ℤ`.
  Python `%` on a positive modulus agrees with `Int.emod`.
* Python `x & ~b` on non-negative `x` clears the bits of `b`; since `x &&& b`
  is a sub-mask of `x`, this equals `x - (x &&& b)`, which is how it is
  written here (Lean `Nat` has no bitwise complement).
* Python floats are modelled as exact rationals `ℚ`; `round(x, 6)` is modelled
  as round-half-to-even at six decimal places on `ℚ` (CPython's documented
  rounding mode).
* RGBA pixel buffers are functions `ℕ → ℕ → P` over an abstract pixel type
  `P`; only the `tile_size × tile_size` prefix is meaningful.  The pixel-level
  primitives the script delegates to PIL are modelled as follows: `crop` and
  `paste` concretely (pure index arithmetic), `Image.alpha_composite` and the
  blank-canvas colour as black-box parameters `alphaComp` / `transparent`
  (the spec classifies them as external collaborators).
* Python `dict` is an association list; `sorted(roles.items())` (which
  compares the distinct string keys lexicographically by code point) is a
  structural stable insertion sort by key, so that every definition stays
  kernel-computable.
* Exceptions (`KeyError` from `chosen[...]`, etc.) are modelled by `Option`;
  the `RuntimeError` guard of `compute_47_bitmasks` by `Except String`.
-/

namespace Autotile47

/-! ### Neighbor direction bit constants -/

def N : ℕ := 1
def NE : ℕ := 2
def E : ℕ := 4
def SE : ℕ := 8
def S : ℕ := 16
def SW : ℕ := 32
def W : ℕ := 64
def NW : ℕ := 128

/-! ### Quadrants and quadrant rules -/

inductive Quadrant where
  | TL
  | TR
  | BL
  | BR
deriving DecidableEq, Fintype, Repr

/-- Models `QUADRANT_OFFSETS` from the source: quadrant -> (dy, dx). -/
def QUADRANT_OFFSETS : Quadrant → ℕ × ℕ
  | .TL => (0, 0)
  | .TR => (0, 1)
  | .BL => (1, 0)
  | .BR => (1, 1)

/-- Which neighbors and source tiles to check for one output quadrant. -/
structure QuadrantRule where
  cardinal1 : ℕ
  cardinal2 : ℕ
  diagonal : ℕ
  corner_tile : String
  edge_c1_tile : String
  edge_c2_tile : String
  inner_tile : String
deriving DecidableEq, Repr

def QUADRANT_RULES : Quadrant → QuadrantRule
  | .TL => ⟨N, W, NW, "outer_tl", "outer_left", "outer_top", "inner_d"⟩
  | .TR => ⟨N, E, NE, "outer_tr", "outer_right", "outer_top", "inner_c"⟩
  | .BL => ⟨S, W, SW, "outer_bl", "outer_left", "outer_bottom", "inner_b"⟩
  | .BR => ⟨S, E, SE, "outer_br", "outer_right", "outer_bottom", "inner_a"⟩

def REQUIRED_ROLES : List String :=
  ["center", "outer_tl", "outer_top", "outer_tr", "outer_left", "outer_right",
   "outer_bl", "outer_bottom", "outer_br", "inner_a", "inner_b", "inner_c",
   "inner_d", "single"]

def OPTIONAL_ROLES : List String := ["inner_e", "inner_f"]

/-- Models `_ROLE_STRIDE`: prime stride to decorrelate variant picks across roles. -/
def ROLE_STRIDE : ℕ := 7

/-- Models `_HASH_PRIME_X` (Teschner et al. spatial hash prime). -/
def HASH_PRIME_X : ℕ := 73856093

/-- Models `_HASH_PRIME_Y` (Teschner et al. spatial hash prime). -/
def HASH_PRIME_Y : ℕ := 19349663

/-! ### Bitmask computation (`reduce_bitmask`, `compute_47_bitmasks`) -/

/-- Models `reduce_bitmask`: zero out diagonal bits when adjacent cardinals are
absent.  Python `reduced &= ~B` on a non-negative int is written
`reduced - (reduced &&& B)` (equal, since `reduced &&& B` is a sub-mask). -/
def reduce_bitmask (raw : ℕ) : ℕ :=
  let reduced := raw
  let reduced := if raw &&& N ≠ 0 ∧ raw &&& E ≠ 0 then reduced else reduced - (reduced &&& NE)
  let reduced := if raw &&& S ≠ 0 ∧ raw &&& E ≠ 0 then reduced else reduced - (reduced &&& SE)
  let reduced := if raw &&& S ≠ 0 ∧ raw &&& W ≠ 0 then reduced else reduced - (reduced &&& SW)
  let reduced := if raw &&& N ≠ 0 ∧ raw &&& W ≠ 0 then reduced else reduced - (reduced &&& NW)
  reduced

/-- Structural insertion of an element into a list, in front of the first
element it compares `le` to (stable, like Python's sort). -/
def insertLe (le : α → α → Bool) (x : α) : List α → List α
  | [] => [x]
  | y :: ys => if le x y then x :: y :: ys else y :: insertLe le x ys

/-- Structural stable insertion sort; models Python `sorted`. -/
def sortByLe (le : α → α → Bool) : List α → List α
  | [] => []
  | x :: xs => insertLe le x (sortByLe le xs)

/-- Models `sorted(set(reduce_bitmask(raw) for raw in range(256)))`. -/
def canonicalMasks : List ℕ :=
  sortByLe Nat.ble (((List.range 256).map reduce_bitmask).dedup)

/-- Models `compute_47_bitmasks`: the sorted unique canonical bitmask values, with
the internal-consistency guard (`RuntimeError` when the count is not 47). -/
def compute_47_bitmasks : Except String (List ℕ) :=
  let result := canonicalMasks
  if result.length ≠ 47 then
    Except.error "Expected 47 unique bitmasks"
  else
    Except.ok result

/-- Models `describe_bitmask`: human-readable description of a bitmask. -/
def describe_bitmask (mask : ℕ) : String :=
  let names := [("N", N), ("NE", NE), ("E", E), ("SE", SE), ("S", S),
                ("SW", SW), ("W", W), ("NW", NW)].filterMap
    (fun nb => if mask &&& nb.2 ≠ 0 then some nb.1 else none)
  if names.isEmpty then "isolated" else String.intercalate "+" names

/-! ### Pixel buffers and quadrant helpers -/

/-- A pixel buffer: only coordinates below the tile size are meaningful. -/
abbrev Img (P : Type) : Type := ℕ → ℕ → P

/-- PIL `img.crop((left, top, left + w, top + h))` as index arithmetic. -/
def cropAt {P : Type} (img : Img P) (left top : ℕ) : Img P :=
  fun x y => img (left + x) (top + y)

/-- PIL `base.paste(src, (px, py))` for a `w × h` source image. -/
def pasteRegion {P : Type} (base src : Img P) (px py w h : ℕ) : Img P :=
  fun x y =>
    if px ≤ x ∧ x < px + w ∧ py ≤ y ∧ y < py + h then src (x - px) (y - py)
    else base x y

/-- Models `extract_quadrant`: crop one quadrant (TL/TR/BL/BR) from a tile image. -/
def extract_quadrant {P : Type} (tile : Img P) (quadrant : Quadrant) (ts : ℕ) : Img P :=
  let half := ts / 2
  let dydx := QUADRANT_OFFSETS quadrant
  cropAt tile (dydx.2 * half) (dydx.1 * half)

/-- Row of a quadrant: `true` for T, `false` for B. -/
def quadTop : Quadrant → Bool
  | .TL => true
  | .TR => true
  | .BL => false
  | .BR => false

/-- Column of a quadrant: `true` for L, `false` for R. -/
def quadLeft : Quadrant → Bool
  | .TL => true
  | .BL => true
  | .TR => false
  | .BR => false

/-- Rebuild a quadrant from (row = T?, col = L?). -/
def mkQuadrant : Bool → Bool → Quadrant
  | true, true => .TL
  | true, false => .TR
  | false, true => .BL
  | false, false => .BR

/-- Models `_mirror_quadrant`: when a cardinal is absent, flip the corresponding
axis of the sampled source quadrant. -/
def mirror_quadrant (quadrant : Quadrant) (has_c1 has_c2 : Bool) : Quadrant :=
  let row := if has_c1 then quadTop quadrant else !quadTop quadrant
  let col := if has_c2 then quadLeft quadrant else !quadLeft quadrant
  mkQuadrant row col

/-! ### Source entries, role tables, variant picking -/

/-- One source image variant for a role. -/
structure SourceEntry (P : Type) where
  role : String
  file : String
  weight : ℚ
  image : Img P

/-- One generated output tile variant. -/
structure TileVariant (P : Type) where
  image : Img P
  weight : ℚ

/-- Models `RoleVariants`: role name -> list of source variants, as an association
list (a Python dict with string keys). -/
abbrev RoleVariants (P : Type) : Type := List (String × List (SourceEntry P))

/-- Lexicographic-by-code-point comparison of char lists (Python `str` <=). -/
def charListLe : List Char → List Char → Bool
  | [], _ => true
  | _ :: _, [] => false
  | c :: cs, d :: ds =>
      if c.val < d.val then true
      else if d.val < c.val then false
      else charListLe cs ds

/-- Python string comparison, used by `sorted(roles.items())` on the keys. -/
def roleKeyLe (a b : String) : Bool := charListLe a.data b.data

/-- Models `sorted(roles.items())` (keys are distinct, so only keys compare). -/
def sortRoles {P : Type} (roles : RoleVariants P) : RoleVariants P :=
  sortByLe (fun a b => roleKeyLe a.1 b.1) roles

/-- The index chosen by `_pick_per_role` for a role with `n` candidates at
role rank `i`: `variants[0]` when `n == 1`, otherwise
`(variant_idx + (seed + i * _ROLE_STRIDE) % n) % n`. -/
def pick_index (n i : ℕ) (seed : ℤ) (variant_idx : ℕ) : ℕ :=
  if n = 1 then 0
  else ((((variant_idx : ℤ) + (seed + (i : ℤ) * (ROLE_STRIDE : ℤ)) % (n : ℤ)) % (n : ℤ))).toNat

/-- The `enumerate(sorted(roles.items()))` loop body of `_pick_per_role`,
carrying the enumeration index `i`.  An empty candidate list (impossible for
a loaded table) yields `none` for that role. -/
def pickRolesAux {P : Type} (variant_idx : ℕ) (seed : ℤ) :
    ℕ → RoleVariants P → List (String × Option (SourceEntry P))
  | _, [] => []
  | i, (name, variants) :: rest =>
      (name, variants.get? (pick_index variants.length i seed variant_idx)) ::
        pickRolesAux variant_idx seed (i + 1) rest

/-- Models `_pick_per_role`: deterministically pick one variant per role. -/
def pick_per_role {P : Type} (roles : RoleVariants P) (variant_idx : ℕ) (seed : ℤ) :
    List (String × Option (SourceEntry P)) :=
  pickRolesAux variant_idx seed 0 (sortRoles roles)

/-- Models `chosen[role]` (a `KeyError` or an impossible pick is `none`). -/
def chosen_lookup {P : Type} (chosen : List (String × Option (SourceEntry P)))
    (role : String) : Option (SourceEntry P) :=
  (chosen.lookup role).bind id

/-! ### Quadrant role resolution -/

/-- Models `_get_quadrant_role`: (primary_role, needs_inner_composite) for a
quadrant + bitmask. -/
def get_quadrant_role (quadrant : Quadrant) (mask : ℕ) : String × Bool :=
  let rule := QUADRANT_RULES quadrant
  let has_c1 := mask &&& rule.cardinal1 ≠ 0
  let has_c2 := mask &&& rule.cardinal2 ≠ 0
  let has_diag := mask &&& rule.diagonal ≠ 0
  if ¬has_c1 ∧ ¬has_c2 then (rule.corner_tile, false)
  else if has_c1 ∧ ¬has_c2 then (rule.edge_c1_tile, false)
  else if ¬has_c1 ∧ has_c2 then (rule.edge_c2_tile, false)
  else if has_c1 ∧ has_c2 ∧ ¬has_diag then (rule.inner_tile, true)
  else ("center", false)

/-- Models `roles` dict order (dict-of-role-name iteration in `QUADRANT_OFFSETS`
order, as written in the source). -/
def quadrantList : List Quadrant := [.TL, .TR, .BL, .BR]

/-- Models `_get_roles_for_bitmask`: every role that participates in composing
`mask` (a Python `set`, modelled as a deduplicated list). -/
def get_roles_for_bitmask {P : Type} (mask : ℕ) (roles : RoleVariants P) : List String :=
  if mask = 0 then ["single"]
  else if mask = 85 ∧ (roles.lookup "inner_e").isSome ∧ (roles.lookup "inner_f").isSome then
    ["inner_e", "inner_f", "center"]
  else
    (quadrantList.foldl
      (fun used q =>
        let ri := get_quadrant_role q mask
        let used := used ++ [ri.1]
        if ri.2 then used ++ ["center"] else used)
      []).dedup

/-! ### Variant generation -/

/-- Models `_variant_count_for_mask`: how many variants to generate for one bitmask
configuration. -/
def variant_count_for_mask {P : Type} (mask : ℕ) (roles : RoleVariants P)
    (max_variants : Option ℕ) : ℕ :=
  let used := get_roles_for_bitmask mask roles
  let counts := used.filterMap (fun r => (roles.lookup r).map List.length)
  let k := if counts.isEmpty then 1 else counts.foldl max 0
  let k := match max_variants with
    | some c => min k c
    | none => k
  max 1 k

/-- Models `_compose_quadrant`: build one output quadrant.  Returns
(image, primary_weight); a missing role is a propagated `KeyError`. -/
def compose_quadrant {P : Type} (alphaComp : Img P → Img P → Img P)
    (quadrant : Quadrant) (mask : ℕ)
    (chosen : List (String × Option (SourceEntry P))) (ts : ℕ) :
    Option (Img P × ℚ) :=
  let rule := QUADRANT_RULES quadrant
  let has_c1 := mask &&& rule.cardinal1 ≠ 0
  let has_c2 := mask &&& rule.cardinal2 ≠ 0
  let ri := get_quadrant_role quadrant mask
  match chosen_lookup chosen ri.1 with
  | none => none
  | some source =>
      let src_q := mirror_quadrant quadrant (decide has_c1) (decide has_c2)
      let quad_img := extract_quadrant source.image src_q ts
      if ri.2 then
        match chosen_lookup chosen "center" with
        | none => none
        | some center =>
            some (alphaComp quad_img (extract_quadrant center.image src_q ts), source.weight)
      else
        some (quad_img, source.weight)

/-- Models `_compose_bitmask85`: special composition for bitmask 85
(N+E+S+W, no diagonals), INNER_E / INNER_F composited over CENTER. -/
def compose_bitmask85 {P : Type} (transparent : P)
    (alphaComp : Img P → Img P → Img P)
    (chosen : List (String × Option (SourceEntry P))) (ts : ℕ) :
    Option (Img P × ℚ) :=
  let half := ts / 2
  match chosen_lookup chosen "inner_e", chosen_lookup chosen "inner_f",
        chosen_lookup chosen "center" with
  | some ie, some if_entry, some center =>
      let quad_map : List (Quadrant × (SourceEntry P × Quadrant)) :=
        [(.TL, (ie, .TL)), (.TR, (if_entry, .TR)),
         (.BL, (if_entry, .BL)), (.BR, (ie, .BR))]
      some (quad_map.foldl
        (fun acc entry =>
          let dydx := QUADRANT_OFFSETS entry.1
          let inner_q := extract_quadrant entry.2.1.image entry.2.2 ts
          let center_q := extract_quadrant center.image entry.1 ts
          let composited := alphaComp inner_q center_q
          (pasteRegion acc.1 composited (dydx.2 * half) (dydx.1 * half) half half,
           acc.2 * entry.2.1.weight))
        ((fun _ _ => transparent), (1 : ℚ)))
  | _, _, _ => none

/-- The general quadrant-composition loop of `_generate_single_variant`. -/
def compose_general {P : Type} (transparent : P)
    (alphaComp : Img P → Img P → Img P) (mask : ℕ)
    (chosen : List (String × Option (SourceEntry P))) (ts : ℕ) :
    Option (Img P × ℚ) :=
  let half := ts / 2
  quadrantList.foldlM
    (fun acc q => do
      let iw ← compose_quadrant alphaComp q mask chosen ts
      let dydx := QUADRANT_OFFSETS q
      pure (pasteRegion acc.1 iw.1 (dydx.2 * half) (dydx.1 * half) half half,
            acc.2 * iw.2))
    ((fun _ _ => transparent), (1 : ℚ))

/-- Models `_generate_single_variant`: one tile variant for a bitmask
configuration.  The isolated tile (mask 0) is a direct copy of the chosen
`single` entry; mask 85 takes the special path when both optional roles are
available. -/
def generate_single_variant {P : Type} (transparent : P)
    (alphaComp : Img P → Img P → Img P) (mask : ℕ) (roles : RoleVariants P)
    (variant_idx : ℕ) (seed : ℤ) (ts : ℕ) : Option (TileVariant P) :=
  let chosen := pick_per_role roles variant_idx seed
  if mask = 0 then
    (chosen_lookup chosen "single").map (fun entry => ⟨entry.image, entry.weight⟩)
  else if mask = 85 ∧ (chosen_lookup chosen "inner_e").isSome ∧
      (chosen_lookup chosen "inner_f").isSome then
    (compose_bitmask85 transparent alphaComp chosen ts).map (fun iw => ⟨iw.1, iw.2⟩)
  else
    (compose_general transparent alphaComp mask chosen ts).map (fun iw => ⟨iw.1, iw.2⟩)

/-! ### Weight normalization and the per-mask build loop -/

/-- Round-half-to-even to an integer (CPython `round` on exact values). -/
def roundHalfEven (y : ℚ) : ℤ :=
  let f := ⌊y⌋
  let r := y - f
  if r < 1 / 2 then f
  else if 1 / 2 < r then f + 1
  else if f % 2 = 0 then f else f + 1

/-- Python `round(x, 6)`. -/
def round6 (x : ℚ) : ℚ := (roundHalfEven (x * 1000000) : ℚ) / 1000000

/-- The weight-normalisation block of `generate_all_variants`: divide by the
total and round to 6 decimals, skipped when the total is not positive. -/
def normalize_weights {P : Type} (variants : List (TileVariant P)) : List (TileVariant P) :=
  let total_w := (variants.map (fun v => v.weight)).sum
  if 0 < total_w then
    variants.map (fun v => ⟨v.image, round6 (v.weight / total_w)⟩)
  else
    variants

/-- One iteration of the `for mask in bitmasks` loop of
`generate_all_variants`: generate `k` variants, then normalise weights. -/
def generate_for_mask {P : Type} (transparent : P)
    (alphaComp : Img P → Img P → Img P) (roles : RoleVariants P) (mask : ℕ)
    (max_variants : Option ℕ) (seed : ℤ) (ts : ℕ) : Option (List (TileVariant P)) :=
  let k := variant_count_for_mask mask roles max_variants
  ((List.range k).mapM
    (fun vi => generate_single_variant transparent alphaComp mask roles vi seed ts)).map
    normalize_weights

/-- The full mask loop, keyed in input order (Python dict insertion order). -/
def genMasksList {P : Type} (transparent : P)
    (alphaComp : Img P → Img P → Img P) (roles : RoleVariants P)
    (max_variants : Option ℕ) (seed : ℤ) (ts : ℕ) :
    List ℕ → Option (List (ℕ × List (TileVariant P)))
  | [] => some []
  | mask :: rest => do
      let vs ← generate_for_mask transparent alphaComp roles mask max_variants seed ts
      let tail ← genMasksList transparent alphaComp roles max_variants seed ts rest
      pure ((mask, vs) :: tail)

/-- Models `generate_all_variants`: every variant for every bitmask, plus the
maximum per-mask variant count. -/
def generate_all_variants {P : Type} (transparent : P)
    (alphaComp : Img P → Img P → Img P) (roles : RoleVariants P)
    (bitmasks : List ℕ) (max_variants : Option ℕ) (seed : ℤ) (ts : ℕ) :
    Option (List (ℕ × List (TileVariant P)) × ℕ) :=
  (genMasksList transparent alphaComp roles max_variants seed ts bitmasks).map
    (fun out =>
      (out, bitmasks.foldl (fun g m => max g (variant_count_for_mask m roles max_variants)) 0))

/-! ### Spritesheet layout and RON mapping -/

/-- Models `layout_spritesheet`: arrange tiles into a spritesheet image. -/
def layout_spritesheet {P : Type} (transparent : P)
    (all_variants : List (ℕ × List (TileVariant P))) (bitmasks : List ℕ)
    (ts _actual_max : ℕ) (layout : String) : Img P :=
  (bitmasks.enum).foldl
    (fun out bmIdxMask =>
      (((all_variants.lookup bmIdxMask.2).getD []).enum).foldl
        (fun out viVariant =>
          let cr :=
            if layout = "variants_x" then (bmIdxMask.1, viVariant.1)
            else (viVariant.1, bmIdxMask.1)
          pasteRegion out viVariant.2.image (cr.1 * ts) (cr.2 * ts) ts ts)
        out)
    (fun _ _ => transparent)

/-- Models `_atlas_dims`. -/
def atlas_dims (bitmasks : List ℕ) (actual_max : ℕ) (layout : String) : ℕ × ℕ :=
  if layout = "variants_x" then (bitmasks.length, actual_max)
  else (actual_max, bitmasks.length)

/-- One `(index, col, row, weight)` tuple of the RON mapping. -/
structure RonVariant where
  index : ℕ
  col : ℕ
  row : ℕ
  weight : ℚ
deriving DecidableEq, Repr

/-- One per-mask entry of the RON mapping. -/
structure RonTile where
  mask : ℕ
  description : String
  variants : List RonVariant
deriving DecidableEq, Repr

/-- The structured content of the `.ron` index document. -/
structure RonDoc where
  tile_size : ℕ
  atlas_columns : ℕ
  atlas_rows : ℕ
  tiles : List RonTile
deriving DecidableEq, Repr

/-- Models `generate_ron_mapping`, at the level of the structured index content. -/
def generate_ron_mapping {P : Type} (all_variants : List (ℕ × List (TileVariant P)))
    (bitmasks : List ℕ) (ts actual_max : ℕ) (layout : String) : RonDoc :=
  let dims := atlas_dims bitmasks actual_max layout
  { tile_size := ts
    atlas_columns := dims.1
    atlas_rows := dims.2
    tiles := (bitmasks.enum).map (fun bmIdxMask =>
      { mask := bmIdxMask.2
        description := describe_bitmask bmIdxMask.2
        variants := (((all_variants.lookup bmIdxMask.2).getD []).enum).map
          (fun viVariant =>
            let cr :=
              if layout = "variants_x" then (bmIdxMask.1, viVariant.1)
              else (viVariant.1, bmIdxMask.1)
            { index := viVariant.1, col := cr.1, row := cr.2,
              weight := viVariant.2.weight }) }) }

/-- The generation core of `process_single`: canonical masks, all variants,
spritesheet, RON mapping. -/
def run_generation {P : Type} (transparent : P)
    (alphaComp : Img P → Img P → Img P) (roles : RoleVariants P)
    (max_variants : Option ℕ) (seed : ℤ) (ts : ℕ) (layout : String) :
    Option (List (ℕ × List (TileVariant P)) × ℕ × Img P × RonDoc) := do
  let bitmasks ← compute_47_bitmasks.toOption
  let outMax ← generate_all_variants transparent alphaComp roles bitmasks max_variants seed ts
  pure (outMax.1, outMax.2,
        layout_spritesheet transparent outMax.1 bitmasks ts outMax.2 layout,
        generate_ron_mapping outMax.1 bitmasks ts outMax.2 layout)

/-! ### Test map: cell masks and the runtime variant picker -/

/-- Models `_cell_filled`. -/
def cell_filled (pattern : List (List ℕ)) (y x : ℤ) : Bool :=
  let h := pattern.length
  let w := (pattern.headD []).length
  decide (0 ≤ y) && decide (y < h) && decide (0 ≤ x) && decide (x < w) &&
    decide (((pattern.getD y.toNat []).getD x.toNat 0) ≠ 0)

/-- The mask-building chain of `_compute_cell_mask`, as a function of the
eight neighbour-filled tests. -/
def cellMaskCore (bN bE bS bW bNE bSE bSW bNW : Bool) : ℕ :=
  let mask := 0
  let mask := if bN then mask ||| N else mask
  let mask := if bE then mask ||| E else mask
  let mask := if bS then mask ||| S else mask
  let mask := if bW then mask ||| W else mask
  let mask := if mask &&& N ≠ 0 ∧ mask &&& E ≠ 0 ∧ bNE then mask ||| NE else mask
  let mask := if mask &&& S ≠ 0 ∧ mask &&& E ≠ 0 ∧ bSE then mask ||| SE else mask
  let mask := if mask &&& S ≠ 0 ∧ mask &&& W ≠ 0 ∧ bSW then mask ||| SW else mask
  let mask := if mask &&& N ≠ 0 ∧ mask &&& W ≠ 0 ∧ bNW then mask ||| NW else mask
  mask

/-- Models `_compute_cell_mask`. -/
def compute_cell_mask (pattern : List (List ℕ)) (y x : ℤ) : ℕ :=
  cellMaskCore
    (cell_filled pattern (y - 1) x) (cell_filled pattern y (x + 1))
    (cell_filled pattern (y + 1) x) (cell_filled pattern y (x - 1))
    (cell_filled pattern (y - 1) (x + 1)) (cell_filled pattern (y + 1) (x + 1))
    (cell_filled pattern (y + 1) (x - 1)) (cell_filled pattern (y - 1) (x - 1))

/-- The deterministic position hash of `generate_test_map`:
`(x * _HASH_PRIME_X) ^ (y * _HASH_PRIME_Y)`. -/
def hash_position (x y : ℕ) : ℕ := (x * HASH_PRIME_X) ^^^ (y * HASH_PRIME_Y)

/-- Models `t = (h & 0xFFFFFFFF) / 0xFFFFFFFF` as an exact rational. -/
def t_of_position (x y : ℕ) : ℚ :=
  ((hash_position x y &&& 0xFFFFFFFF : ℕ) : ℚ) / ((0xFFFFFFFF : ℕ) : ℚ)

/-- The cumulative-weight walk of the test-map pick loop: `chosen` starts as
`variants[0]` and is replaced by the first variant whose running sum
exceeds `t`. -/
def pickLoop {P : Type} (t : ℚ) (fallback : TileVariant P) :
    ℚ → List (TileVariant P) → TileVariant P
  | _, [] => fallback
  | cumulative, v :: rest =>
      if t < cumulative + v.weight then v
      else pickLoop t fallback (cumulative + v.weight) rest

/-- The weighted variant pick of `generate_test_map` for one cell
(`none` when the variant list is empty, which the caller skips). -/
def pick_variant {P : Type} (variants : List (TileVariant P)) (t : ℚ) :
    Option (TileVariant P) :=
  match variants with
  | [] => none
  | v0 :: _ => some (pickLoop t v0 0 variants)

/-- Inclusive prefix sums of the variant weights, starting from `acc`
(specification-side definition, used to state what the pick loop returns). -/
def inclPrefixSums {P : Type} : ℚ → List (TileVariant P) → List ℚ
  | _, [] => []
  | acc, v :: rest => (acc + v.weight) :: inclPrefixSums (acc + v.weight) rest

/-- Modelled from the spec: return the first variant whose inclusive
prefix-sum of weights exceeds the hash value, falling back to the first
variant.  This is the claimed behaviour, to be compared with `pick_variant`. -/
def pick_variant_spec {P : Type} (variants : List (TileVariant P)) (t : ℚ) :
    Option (TileVariant P) :=
  match (variants.zip (inclPrefixSums 0 variants)).find? (fun vc => decide (t < vc.2)) with
  | some vc => some vc.1
  | none => variants.head?

/-! ### MaskAlgebra claims -/

/-- Modelled from the spec's description of `reduce` ("for each of the four
diagonal bits, clear it unless both its adjacent cardinal bits are set"),
stated for 8-bit masks; compared against the source `reduce_bitmask`. -/
def reduce_bitmask_spec (raw : ℕ) : ℕ :=
  (raw &&& (N ||| E ||| S ||| W)) |||
  (if raw &&& N ≠ 0 ∧ raw &&& E ≠ 0 then raw &&& NE else 0) |||
  (if raw &&& S ≠ 0 ∧ raw &&& E ≠ 0 then raw &&& SE else 0) |||
  (if raw &&& S ≠ 0 ∧ raw &&& W ≠ 0 then raw &&& SW else 0) |||
  (if raw &&& N ≠ 0 ∧ raw &&& W ≠ 0 then raw &&& NW else 0)

set_option maxRecDepth 10000 in
/-- C1: `compute_47_bitmasks` returns exactly the 47 distinct canonical
values obtained by reducing all raw masks 0..255, sorted strictly
ascending; every returned value is a fixed point of `reduce_bitmask`; and
a count other than 47 would be returned as an error, never as a value. -/
theorem c1_enumerate_canonical :
    compute_47_bitmasks = Except.ok canonicalMasks ∧
    canonicalMasks.length = 47 ∧
    canonicalMasks.Nodup ∧
    List.Sorted (· < ·) canonicalMasks ∧
    canonicalMasks.toFinset = (((List.range 256).map reduce_bitmask).toFinset) ∧
    (∀ m ∈ canonicalMasks, reduce_bitmask m = m) ∧
    (∀ l, compute_47_bitmasks = Except.ok l → l.length = 47) := by
  have hlen : canonicalMasks.length = 47 := by decide
  have hok : compute_47_bitmasks = Except.ok canonicalMasks := by
    simp [compute_47_bitmasks, hlen]
  refine ⟨hok, hlen, by decide, by decide, by decide, by decide, ?_⟩
  intro l hl
  rw [hok] at hl
  have h : l = canonicalMasks := (Except.ok.injEq _ _).mp hl.symm
  rw [h, hlen]

set_option maxRecDepth 10000 in
/-- C1 witness: the canonical value 255 is reported and is a fixed point. -/
theorem c1_enumerate_canonical_witness :
    (255 ∈ canonicalMasks) ∧ reduce_bitmask 255 = 255 :=
  ⟨by decide, c1_enumerate_canonical.2.2.2.2.2.1 255 (by decide)⟩

set_option maxRecDepth 2000 in
/-- C2: `reduce_bitmask` is idempotent on all raw masks 0..255, agrees with
the spec's description of the reduction rule, and is total (it is a plain
function with no failure mode). -/
theorem c2_reduce_idempotent :
    ∀ m, m < 256 →
      reduce_bitmask (reduce_bitmask m) = reduce_bitmask m ∧
      reduce_bitmask m = reduce_bitmask_spec m := by
  decide

/-- C2 witness at the raw mask 255. -/
theorem c2_reduce_idempotent_witness :
    reduce_bitmask (reduce_bitmask 255) = reduce_bitmask 255 ∧
    reduce_bitmask 255 = reduce_bitmask_spec 255 :=
  c2_reduce_idempotent 255 (by decide)

set_option maxRecDepth 10000 in
lemma quadrantRole_corner (q : Quadrant) :
    ∀ mask, mask < 256 →
      (mask &&& (QUADRANT_RULES q).cardinal1 = 0 ∧
          mask &&& (QUADRANT_RULES q).cardinal2 = 0) →
        get_quadrant_role q mask = ((QUADRANT_RULES q).corner_tile, false) := by
  cases q <;> decide

set_option maxRecDepth 10000 in
lemma quadrantRole_edge1 (q : Quadrant) :
    ∀ mask, mask < 256 →
      (mask &&& (QUADRANT_RULES q).cardinal1 ≠ 0 ∧
          mask &&& (QUADRANT_RULES q).cardinal2 = 0) →
        get_quadrant_role q mask = ((QUADRANT_RULES q).edge_c1_tile, false) := by
  cases q <;> decide

set_option maxRecDepth 10000 in
lemma quadrantRole_edge2 (q : Quadrant) :
    ∀ mask, mask < 256 →
      (mask &&& (QUADRANT_RULES q).cardinal1 = 0 ∧
          mask &&& (QUADRANT_RULES q).cardinal2 ≠ 0) →
        get_quadrant_role q mask = ((QUADRANT_RULES q).edge_c2_tile, false) := by
  cases q <;> decide

set_option maxRecDepth 10000 in
lemma quadrantRole_inner (q : Quadrant) :
    ∀ mask, mask < 256 →
      (mask &&& (QUADRANT_RULES q).cardinal1 ≠ 0 ∧
          mask &&& (QUADRANT_RULES q).cardinal2 ≠ 0 ∧
          mask &&& (QUADRANT_RULES q).diagonal = 0) →
        get_quadrant_role q mask = ((QUADRANT_RULES q).inner_tile, true) := by
  cases q <;> decide

set_option maxRecDepth 10000 in
lemma quadrantRole_center (q : Quadrant) :
    ∀ mask, mask < 256 →
      (mask &&& (QUADRANT_RULES q).cardinal1 ≠ 0 ∧
          mask &&& (QUADRANT_RULES q).cardinal2 ≠ 0 ∧
          mask &&& (QUADRANT_RULES q).diagonal ≠ 0) →
        get_quadrant_role q mask = ("center", false) := by
  cases q <;> decide

set_option maxRecDepth 10000 in
lemma quadrantRole_flag (q : Quadrant) :
    ∀ mask, mask < 256 →
      ((get_quadrant_role q mask).2 = true ↔
        (mask &&& (QUADRANT_RULES q).cardinal1 ≠ 0 ∧
          mask &&& (QUADRANT_RULES q).cardinal2 ≠ 0 ∧
          mask &&& (QUADRANT_RULES q).diagonal = 0)) := by
  cases q <;> decide

/-- C3: for every quadrant and every 8-bit mask, `_get_quadrant_role`
follows the four-case rule (corner / edge / inner-notch / center) of the
quadrant's `QUADRANT_RULES` record, and the inner-notch case (both
cardinals present, diagonal absent) is the only one whose composite flag
is true. -/
theorem c3_quadrant_role :
    ∀ (q : Quadrant) (mask : ℕ), mask < 256 →
      ((mask &&& (QUADRANT_RULES q).cardinal1 = 0 ∧
          mask &&& (QUADRANT_RULES q).cardinal2 = 0) →
        get_quadrant_role q mask = ((QUADRANT_RULES q).corner_tile, false)) ∧
      ((mask &&& (QUADRANT_RULES q).cardinal1 ≠ 0 ∧
          mask &&& (QUADRANT_RULES q).cardinal2 = 0) →
        get_quadrant_role q mask = ((QUADRANT_RULES q).edge_c1_tile, false)) ∧
      ((mask &&& (QUADRANT_RULES q).cardinal1 = 0 ∧
          mask &&& (QUADRANT_RULES q).cardinal2 ≠ 0) →
        get_quadrant_role q mask = ((QUADRANT_RULES q).edge_c2_tile, false)) ∧
      ((mask &&& (QUADRANT_RULES q).cardinal1 ≠ 0 ∧
          mask &&& (QUADRANT_RULES q).cardinal2 ≠ 0 ∧
          mask &&& (QUADRANT_RULES q).diagonal = 0) →
        get_quadrant_role q mask = ((QUADRANT_RULES q).inner_tile, true)) ∧
      ((mask &&& (QUADRANT_RULES q).cardinal1 ≠ 0 ∧
          mask &&& (QUADRANT_RULES q).cardinal2 ≠ 0 ∧
          mask &&& (QUADRANT_RULES q).diagonal ≠ 0) →
        get_quadrant_role q mask = ("center", false)) ∧
      ((get_quadrant_role q mask).2 = true ↔
        (mask &&& (QUADRANT_RULES q).cardinal1 ≠ 0 ∧
          mask &&& (QUADRANT_RULES q).cardinal2 ≠ 0 ∧
          mask &&& (QUADRANT_RULES q).diagonal = 0)) := by
  intro q mask hm
  exact ⟨quadrantRole_corner q mask hm, quadrantRole_edge1 q mask hm,
         quadrantRole_edge2 q mask hm, quadrantRole_inner q mask hm,
         quadrantRole_center q mask hm, quadrantRole_flag q mask hm⟩

/-- C3 witness at the TL quadrant and mask 85 (both cardinals, no
diagonal: the composite-inducing inner-notch case). -/
theorem c3_quadrant_role_witness :
    get_quadrant_role .TL 85 = ((QUADRANT_RULES .TL).inner_tile, true) ∧
    ((get_quadrant_role .TL 85).2 = true ↔
      (85 &&& (QUADRANT_RULES .TL).cardinal1 ≠ 0 ∧
        85 &&& (QUADRANT_RULES .TL).cardinal2 ≠ 0 ∧
        85 &&& (QUADRANT_RULES .TL).diagonal = 0)) :=
  ⟨(c3_quadrant_role .TL 85 (by decide)).2.2.2.1 (by decide),
   (c3_quadrant_role .TL 85 (by decide)).2.2.2.2.2⟩

/-! ### VariantSelector claims -/

/-- The function `pick_index` is a plain rotation once the seed-derived offset is fixed. -/
lemma pick_index_eq (n i : ℕ) (seed : ℤ) (v : ℕ) (hn : 0 < n) :
    pick_index n i seed v =
      (v + ((seed + (i : ℤ) * (ROLE_STRIDE : ℤ)) % (n : ℤ)).toNat) % n := by
  unfold pick_index
  by_cases h1 : n = 1
  · subst h1
    simp [Nat.mod_one]
  · rw [if_neg h1]
    have hn0 : (n : ℤ) ≠ 0 := by
      exact_mod_cast hn.ne'
    have honn : 0 ≤ (seed + (i : ℤ) * (ROLE_STRIDE : ℤ)) % (n : ℤ) :=
      Int.emod_nonneg _ hn0
    have hcast : (v : ℤ) + (seed + (i : ℤ) * (ROLE_STRIDE : ℤ)) % (n : ℤ)
        = ((v + ((seed + (i : ℤ) * (ROLE_STRIDE : ℤ)) % (n : ℤ)).toNat : ℕ) : ℤ) := by
      push_cast [Int.toNat_of_nonneg honn]
      ring
    rw [hcast, ← Int.natCast_mod]
    exact Int.toNat_natCast _

/-- Adding a fixed offset modulo `n` is injective below `n`. -/
lemma rot_mod_injOn (n o : ℕ) :
    ∀ v1, v1 < n → ∀ v2, v2 < n → (v1 + o) % n = (v2 + o) % n → v1 = v2 := by
  intro v1 h1 v2 h2 h
  have h3 : v1 % n = v2 % n := Nat.ModEq.add_right_cancel' o h
  rwa [Nat.mod_eq_of_lt h1, Nat.mod_eq_of_lt h2] at h3

/-- Adding a fixed offset modulo `n` permutes `{0, ..., n-1}`. -/
lemma rot_mod_image (n o : ℕ) (hn : 0 < n) :
    Finset.image (fun v => (v + o) % n) (Finset.range n) = Finset.range n := by
  refine Finset.eq_of_subset_of_card_le ?_ ?_
  · intro x hx
    simp only [Finset.mem_image, Finset.mem_range] at hx ⊢
    obtain ⟨v, _, hv⟩ := hx
    exact hv ▸ Nat.mod_lt _ hn
  · have hcard : (Finset.image (fun v => (v + o) % n) (Finset.range n)).card = n := by
      rw [Finset.card_image_of_injOn, Finset.card_range]
      intro v1 hv1 v2 hv2 h
      exact rot_mod_injOn n o v1 (Finset.mem_range.mp hv1) v2 (Finset.mem_range.mp hv2) h
    rw [hcard, Finset.card_range]

/-- C4: for a role with `n ≥ 1` candidates and a fixed seed, the picks for
draw indices `0..n-1` are a bijection onto the candidate indices (a full
cycle); a single-candidate role always yields index 0 regardless of seed
and draw index; and changing the seed only shifts the cyclic phase of the
rotation (there is a draw-index shift `d` realising the new seed's picks),
never its order. -/
theorem c4_variant_selector_cycle (n i : ℕ) (s t : ℤ) (v1 v2 : ℕ) (hn : 1 ≤ n) :
    Finset.image (fun v => pick_index n i s v) (Finset.range n) = Finset.range n ∧
    pick_index 1 i s v1 = 0 ∧
    (v1 < n → v2 < n → pick_index n i s v1 = pick_index n i s v2 → v1 = v2) ∧
    (∃ d, ∀ v, pick_index n i t v = pick_index n i s (v + d)) := by
  have hn0 : 0 < n := hn
  have hn0z : (n : ℤ) ≠ 0 := by
    exact_mod_cast hn0.ne'
  set oS : ℕ := ((s + (i : ℤ) * (ROLE_STRIDE : ℤ)) % (n : ℤ)).toNat with hoS
  set oT : ℕ := ((t + (i : ℤ) * (ROLE_STRIDE : ℤ)) % (n : ℤ)).toNat with hoT
  have hoSlt : oS < n := by
    rw [hoS]
    have hnz : (0 : ℤ) < (n : ℤ) := by
      exact_mod_cast hn0
    have := Int.emod_lt_of_pos (s + (i : ℤ) * (ROLE_STRIDE : ℤ)) hnz
    omega
  refine ⟨?_, ?_, ?_, ?_⟩
  · have himg : Finset.image (fun v => pick_index n i s v) (Finset.range n)
        = Finset.image (fun v => (v + oS) % n) (Finset.range n) :=
      Finset.image_congr (fun v _ => pick_index_eq n i s v hn0)
    rw [himg]
    exact rot_mod_image n oS hn0
  · simp [pick_index]
  · intro h1 h2 h
    rw [pick_index_eq n i s v1 hn0, pick_index_eq n i s v2 hn0] at h
    exact rot_mod_injOn n oS v1 h1 v2 h2 h
  · refine ⟨n - oS + oT, fun v => ?_⟩
    rw [pick_index_eq n i t v hn0, pick_index_eq n i s (v + (n - oS + oT)) hn0]
    have harith : v + (n - oS + oT) + oS = v + oT + n := by
      omega
    rw [← hoS, ← hoT, harith, Nat.add_mod_right]

/-- C4 witness: a 3-candidate role at rank 0 with seeds 42 and 7. -/
theorem c4_variant_selector_cycle_witness :
    Finset.image (fun v => pick_index 3 0 42 v) (Finset.range 3) = Finset.range 3 ∧
    pick_index 1 0 42 0 = 0 ∧
    ((0 : ℕ) < 3 → 1 < 3 → pick_index 3 0 42 0 = pick_index 3 0 42 1 → (0 : ℕ) = 1) ∧
    (∃ d, ∀ v, pick_index 3 0 7 v = pick_index 3 0 42 (v + d)) :=
  c4_variant_selector_cycle 3 0 42 7 0 1 (by decide)

/-! ### Lookup through `_pick_per_role` -/

lemma insertLe_perm (le : α → α → Bool) (x : α) (l : List α) :
    (insertLe le x l).Perm (x :: l) := by
  induction l with
  | nil => exact List.Perm.refl _
  | cons y ys ih =>
    unfold insertLe
    by_cases h : le x y
    · rw [if_pos h]
    · rw [if_neg h]
      exact (ih.cons y).trans (List.Perm.swap x y ys)

lemma sortByLe_perm (le : α → α → Bool) (l : List α) :
    (sortByLe le l).Perm l := by
  induction l with
  | nil => exact List.Perm.refl _
  | cons x xs ih =>
    unfold sortByLe
    exact (insertLe_perm le x (sortByLe le xs)).trans (ih.cons x)

lemma sortRoles_perm {P : Type} (roles : RoleVariants P) :
    (sortRoles roles).Perm roles :=
  sortByLe_perm _ roles

/-- A role present with a single candidate is always picked as that
candidate, whatever the enumeration start index, seed and draw index. -/
lemma pickRolesAux_lookup {P : Type} (vi : ℕ) (seed : ℤ) (r : String) (e : SourceEntry P) :
    ∀ (l : RoleVariants P) (i0 : ℕ), (l.map Prod.fst).Nodup → (r, [e]) ∈ l →
      chosen_lookup (pickRolesAux vi seed i0 l) r = some e := by
  intro l
  induction l with
  | nil =>
    intro i0 _ hmem
    simp at hmem
  | cons hd tl ih =>
    intro i0 hnd hmem
    obtain ⟨name, vs⟩ := hd
    rcases List.mem_cons.mp hmem with heq | htl
    · have hr : r = name := congrArg Prod.fst heq
      have hvs : vs = [e] := (congrArg Prod.snd heq).symm
      subst hr
      subst hvs
      simp [pickRolesAux, chosen_lookup, List.lookup, pick_index]
    · have hrtl : r ∈ tl.map Prod.fst := List.mem_map.mpr ⟨(r, [e]), htl, rfl⟩
      have hnd2 : (name :: tl.map Prod.fst).Nodup := by
        rw [List.map_cons] at hnd
        exact hnd
      have hhead : name ∉ tl.map Prod.fst := (List.nodup_cons.mp hnd2).1
      have htlnd : (tl.map Prod.fst).Nodup := (List.nodup_cons.mp hnd2).2
      have hrne : r ≠ name := fun h => hhead (h ▸ hrtl)
      have hne : (r == name) = false := beq_eq_false_iff_ne.mpr hrne
      have ihres := ih (i0 + 1) htlnd htl
      simpa [pickRolesAux, chosen_lookup, List.lookup, hne] using ihres

/-- The lookup `chosen[r]` gives the unique candidate of role `r` after `_pick_per_role`,
for any role table with distinct keys containing `(r, [e])`. -/
lemma chosen_lookup_pick {P : Type} (roles : RoleVariants P) (r : String)
    (e : SourceEntry P) (hnd : (roles.map Prod.fst).Nodup)
    (hmem : (r, [e]) ∈ roles) (vi : ℕ) (seed : ℤ) :
    chosen_lookup (pick_per_role roles vi seed) r = some e := by
  have hperm := sortRoles_perm roles
  have hmem2 : (r, [e]) ∈ sortRoles roles := hperm.mem_iff.mpr hmem
  have hnd2 : ((sortRoles roles).map Prod.fst).Nodup :=
    ((hperm.map Prod.fst).nodup_iff).mpr hnd
  exact pickRolesAux_lookup vi seed r e (sortRoles roles) 0 hnd2 hmem2

/-- Picked indices are always in range for a non-empty candidate list. -/
lemma pick_index_lt (n i : ℕ) (seed : ℤ) (v : ℕ) (hn : 0 < n) :
    pick_index n i seed v < n := by
  rw [pick_index_eq n i seed v hn]
  exact Nat.mod_lt _ hn

/-- A role present with a non-empty candidate list is picked as one of its
candidates, whatever the enumeration start index, seed and draw index. -/
lemma pickRolesAux_lookup_mem {P : Type} (vi : ℕ) (seed : ℤ) (r : String)
    (cands : List (SourceEntry P)) (hcands : cands ≠ []) :
    ∀ (l : RoleVariants P) (i0 : ℕ), (l.map Prod.fst).Nodup → (r, cands) ∈ l →
      ∃ e ∈ cands, chosen_lookup (pickRolesAux vi seed i0 l) r = some e := by
  intro l
  induction l with
  | nil =>
    intro i0 _ hmem
    simp at hmem
  | cons hd tl ih =>
    intro i0 hnd hmem
    obtain ⟨name, vs⟩ := hd
    rcases List.mem_cons.mp hmem with heq | htl
    · have hr : r = name := congrArg Prod.fst heq
      have hvs : vs = cands := (congrArg Prod.snd heq).symm
      subst hr
      subst hvs
      have hpos : 0 < vs.length := List.length_pos.mpr hcands
      have hlt : pick_index vs.length i0 seed vi < vs.length :=
        pick_index_lt _ _ _ _ hpos
      refine ⟨vs.get ⟨pick_index vs.length i0 seed vi, hlt⟩,
        List.get_mem vs _ hlt, ?_⟩
      simp [pickRolesAux, chosen_lookup, List.lookup]
    · have hrtl : r ∈ tl.map Prod.fst := List.mem_map.mpr ⟨(r, cands), htl, rfl⟩
      have hnd2 : (name :: tl.map Prod.fst).Nodup := by
        rw [List.map_cons] at hnd
        exact hnd
      have hhead : name ∉ tl.map Prod.fst := (List.nodup_cons.mp hnd2).1
      have htlnd : (tl.map Prod.fst).Nodup := (List.nodup_cons.mp hnd2).2
      have hrne : r ≠ name := fun h => hhead (h ▸ hrtl)
      have hne : (r == name) = false := beq_eq_false_iff_ne.mpr hrne
      have ihres := ih (i0 + 1) htlnd htl
      simpa [pickRolesAux, chosen_lookup, List.lookup, hne] using ihres

/-- The lookup `chosen[r]` after `_pick_per_role` selects one of `r`'s
candidates, for any role table with distinct keys in which role `r` has a
non-empty candidate list. -/
lemma chosen_lookup_pick_mem {P : Type} (roles : RoleVariants P) (r : String)
    (cands : List (SourceEntry P)) (hnd : (roles.map Prod.fst).Nodup)
    (hmem : (r, cands) ∈ roles) (hcands : cands ≠ []) (vi : ℕ) (seed : ℤ) :
    ∃ e ∈ cands, chosen_lookup (pick_per_role roles vi seed) r = some e := by
  have hperm := sortRoles_perm roles
  have hmem2 : (r, cands) ∈ sortRoles roles := hperm.mem_iff.mpr hmem
  have hnd2 : ((sortRoles roles).map Prod.fst).Nodup :=
    ((hperm.map Prod.fst).nodup_iff).mpr hnd
  exact pickRolesAux_lookup_mem vi seed r cands hcands (sortRoles roles) 0 hnd2 hmem2

/-! ### TileComposer claims (mask 85 special path) -/

/-- The weight accumulated by `_compose_bitmask85` multiplies the chosen
entry weight of each of the four quadrants: `inner_e` at TL and BR,
`inner_f` at TR and BL. -/
lemma compose_bitmask85_weight {P : Type} (transparent : P)
    (alphaComp : Img P → Img P → Img P)
    (chosen : List (String × Option (SourceEntry P))) (ts : ℕ)
    (ie ife c : SourceEntry P)
    (h1 : chosen_lookup chosen "inner_e" = some ie)
    (h2 : chosen_lookup chosen "inner_f" = some ife)
    (h3 : chosen_lookup chosen "center" = some c) :
    ∃ img, compose_bitmask85 transparent alphaComp chosen ts
      = some (img, 1 * ie.weight * ife.weight * ife.weight * ie.weight) := by
  unfold compose_bitmask85
  rw [h1, h2, h3]
  simp only [List.foldl_cons, List.foldl_nil]
  exact ⟨_, rfl⟩

/-- C5 (amended): whenever mask 85 takes the special path — both optional
disambiguator roles available, with any number of candidates — the
generated variant's pre-normalization weight is the product over the four
quadrants of the chosen entries' weights, the chosen `inner_e` entry twice
and the chosen `inner_f` entry twice: the square of the product of the two
chosen disambiguator entries' weights, not that product itself. -/
theorem c5_mask85_weight_amended {P : Type} (transparent : P)
    (alphaComp : Img P → Img P → Img P) (roles : RoleVariants P)
    (ies ifes ces : List (SourceEntry P)) (vi : ℕ) (seed : ℤ) (ts : ℕ)
    (hnd : (roles.map Prod.fst).Nodup)
    (hie : ("inner_e", ies) ∈ roles) (hie0 : ies ≠ [])
    (hife : ("inner_f", ifes) ∈ roles) (hife0 : ifes ≠ [])
    (hc : ("center", ces) ∈ roles) (hc0 : ces ≠ []) :
    ∃ ie ∈ ies, ∃ ife ∈ ifes, ∃ img,
      generate_single_variant transparent alphaComp 85 roles vi seed ts
        = some ⟨img, (ie.weight * ife.weight) ^ 2⟩ := by
  obtain ⟨ie, hiem, h1⟩ := chosen_lookup_pick_mem roles "inner_e" ies hnd hie hie0 vi seed
  obtain ⟨ife, hifem, h2⟩ := chosen_lookup_pick_mem roles "inner_f" ifes hnd hife hife0 vi seed
  obtain ⟨c, hcm, h3⟩ := chosen_lookup_pick_mem roles "center" ces hnd hc hc0 vi seed
  obtain ⟨img, himg⟩ :=
    compose_bitmask85_weight transparent alphaComp (pick_per_role roles vi seed) ts
      ie ife c h1 h2 h3
  refine ⟨ie, hiem, ife, hifem, img, ?_⟩
  unfold generate_single_variant
  rw [if_neg (by decide : ¬ (85 : ℕ) = 0)]
  rw [if_pos ⟨rfl, by rw [h1]; rfl, by rw [h2]; rfl⟩]
  rw [himg]
  have hw : 1 * ie.weight * ife.weight * ife.weight * ie.weight
      = (ie.weight * ife.weight) ^ 2 := by
    ring
  rw [hw]
  rfl

/-- The one-point pixel buffer used by the concrete scenarios. -/
def unitImg : Img Unit := fun _ _ => ()

/-- A concrete source entry over the trivial pixel type. -/
def mkUnitEntry (role : String) (w : ℚ) : SourceEntry Unit :=
  ⟨role, role, w, unitImg⟩

/-- A role table with every mandatory role as a weight-1 singleton and the
optional disambiguators `inner_e` (weight 2) and `inner_f` (weight 3). -/
def rolesC5 : RoleVariants Unit :=
  (REQUIRED_ROLES.map (fun r => (r, [mkUnitEntry r 1]))) ++
  [("inner_e", [mkUnitEntry "inner_e" 2]), ("inner_f", [mkUnitEntry "inner_f" 3])]

/-- C5 amended witness: with disambiguator weights 2 and 3 the generated
mask-85 weight is the square of the chosen entries' weight product. -/
theorem c5_mask85_weight_amended_witness :
    ∃ ie ∈ [mkUnitEntry "inner_e" 2], ∃ ife ∈ [mkUnitEntry "inner_f" 3], ∃ img,
      generate_single_variant () (fun a _ => a) 85 rolesC5 0 42 2
        = some ⟨img, (ie.weight * ife.weight) ^ 2⟩ :=
  c5_mask85_weight_amended () (fun a _ => a) rolesC5 [mkUnitEntry "inner_e" 2]
    [mkUnitEntry "inner_f" 3] [mkUnitEntry "center" 1] 0 42 2 (by decide)
    (by simp [rolesC5, REQUIRED_ROLES]) (by simp)
    (by simp [rolesC5, REQUIRED_ROLES]) (by simp)
    (by simp [rolesC5, REQUIRED_ROLES]) (by simp)

/-- C5 counterexample: with disambiguator weights 2 and 3, the mask-85
variant's pre-normalization weight is 36 = (2·3)², not the claimed
product 2·3 = 6. -/
theorem c5_mask85_weight_counterexample :
    (generate_single_variant () (fun a _ => a) 85 rolesC5 0 42 2).map
      (fun v => v.weight) = some 36 ∧
    (36 : ℚ) ≠ 2 * 3 := by
  constructor
  · have h1 : chosen_lookup (pick_per_role rolesC5 0 42) "inner_e"
        = some (mkUnitEntry "inner_e" 2) := by rfl
    have h2 : chosen_lookup (pick_per_role rolesC5 0 42) "inner_f"
        = some (mkUnitEntry "inner_f" 3) := by rfl
    have h3 : chosen_lookup (pick_per_role rolesC5 0 42) "center"
        = some (mkUnitEntry "center" 1) := by rfl
    obtain ⟨img, himg⟩ :=
      compose_bitmask85_weight () (fun a _ => a) (pick_per_role rolesC5 0 42) 2
        (mkUnitEntry "inner_e" 2) (mkUnitEntry "inner_f" 3) (mkUnitEntry "center" 1)
        h1 h2 h3
    unfold generate_single_variant
    rw [if_neg (by decide : ¬ (85 : ℕ) = 0)]
    rw [if_pos ⟨rfl, by rw [h1]; rfl, by rw [h2]; rfl⟩]
    rw [himg]
    simp only [Option.map_some, Option.map_some']
    norm_num [mkUnitEntry]
  · norm_num

/-! ### VariantSetBuilder normalization claims -/

lemma roundHalfEven_close (y : ℚ) : |(roundHalfEven y : ℚ) - y| ≤ 1 / 2 := by
  have h1 : (⌊y⌋ : ℚ) ≤ y := Int.floor_le y
  have h2 : y < ⌊y⌋ + 1 := Int.lt_floor_add_one y
  simp only [roundHalfEven]
  split_ifs with ha hb hc
  · rw [abs_sub_comm, abs_of_nonneg (by linarith)]
    linarith
  · rw [abs_of_nonneg (by push_cast; linarith)]
    push_cast
    linarith
  · rw [abs_sub_comm, abs_of_nonneg (by linarith)]
    linarith
  · rw [abs_of_nonneg (by push_cast; linarith)]
    push_cast
    linarith

lemma round6_close (x : ℚ) : |round6 x - x| ≤ 1 / 2000000 := by
  unfold round6
  have h := roundHalfEven_close (x * 1000000)
  have heq : (roundHalfEven (x * 1000000) : ℚ) / 1000000 - x
      = ((roundHalfEven (x * 1000000) : ℚ) - x * 1000000) / 1000000 := by
    ring
  rw [heq, abs_div, abs_of_pos (by norm_num : (0 : ℚ) < 1000000)]
  rw [div_le_iff₀ (by norm_num : (0 : ℚ) < 1000000)]
  calc |(roundHalfEven (x * 1000000) : ℚ) - x * 1000000| ≤ 1 / 2 := h
    _ = 1 / 2000000 * 1000000 := by norm_num

/-- Rounding each list element to 6 decimals moves the sum by at most
half a unit in the last place per element. -/
lemma sum_round6_sub (l : List ℚ) :
    |(l.map round6).sum - l.sum| ≤ l.length * (1 / 2000000) := by
  induction l with
  | nil => simp
  | cons a t ih =>
    simp only [List.map_cons, List.sum_cons, List.length_cons]
    have h1 := round6_close a
    calc |round6 a + (t.map round6).sum - (a + t.sum)|
        = |(round6 a - a) + ((t.map round6).sum - t.sum)| := by ring_nf
      _ ≤ |round6 a - a| + |(t.map round6).sum - t.sum| := abs_add _ _
      _ ≤ 1 / 2000000 + t.length * (1 / 2000000) := add_le_add h1 ih
      _ = (t.length + 1) * (1 / 2000000) := by ring
      _ = ((t.length + 1 : ℕ) : ℚ) * (1 / 2000000) := by push_cast; ring

lemma sum_map_div (l : List ℚ) (c : ℚ) :
    (l.map (fun x => x / c)).sum = l.sum / c := by
  induction l with
  | nil => simp
  | cons a t ih => simp [List.sum_cons, ih, add_div]

/-- C6 (amended): after normalization the recorded sibling weights sum to 1
within `n · 5·10⁻⁷` where `n` is the mask's variant count (so within
`10⁻⁶` whenever `n ≤ 2`, but not in general), and when the
pre-normalization sum is not positive the normalization step is skipped
(weights are left untouched) instead of raising an error. -/
theorem c6_normalization_amended {P : Type} (variants : List (TileVariant P)) :
    (0 < (variants.map (fun v => v.weight)).sum →
      |((normalize_weights variants).map (fun v => v.weight)).sum - 1|
        ≤ (variants.length : ℚ) * (1 / 2000000)) ∧
    (¬ 0 < (variants.map (fun v => v.weight)).sum →
      normalize_weights variants = variants) := by
  constructor
  · intro hpos
    unfold normalize_weights
    rw [if_pos hpos]
    have hmap : ((variants.map (fun v =>
          (⟨v.image, round6 (v.weight / (variants.map (fun v => v.weight)).sum)⟩
            : TileVariant P))).map (fun v => v.weight))
        = ((variants.map (fun v => v.weight / (variants.map (fun v => v.weight)).sum)).map
            round6) := by
      simp [List.map_map]
    rw [hmap]
    have hs := sum_round6_sub
      (variants.map (fun v => v.weight / (variants.map (fun v => v.weight)).sum))
    have hdiv : (variants.map (fun v => v.weight / (variants.map (fun v => v.weight)).sum))
        = ((variants.map (fun v => v.weight)).map
            (fun x => x / (variants.map (fun v => v.weight)).sum)) := by
      rw [List.map_map]
      rfl
    have hone : (variants.map
        (fun v => v.weight / (variants.map (fun v => v.weight)).sum)).sum = 1 := by
      rw [hdiv, sum_map_div]
      exact div_self hpos.ne'
    rw [hone] at hs
    have hlen : (variants.map
        (fun v => v.weight / (variants.map (fun v => v.weight)).sum)).length
        = variants.length := by
      rw [List.length_map]
    rw [hlen] at hs
    exact hs
  · intro h
    unfold normalize_weights
    rw [if_neg h]

/-- C6 amended witness: a single unit-weight variant normalizes to weight
1, within the bound. -/
theorem c6_normalization_amended_witness :
    |((normalize_weights [(⟨unitImg, 1⟩ : TileVariant Unit)]).map
        (fun v => v.weight)).sum - 1|
      ≤ (([(⟨unitImg, 1⟩ : TileVariant Unit)].length : ℕ) : ℚ) * (1 / 2000000) :=
  (c6_normalization_amended [(⟨unitImg, 1⟩ : TileVariant Unit)]).1 (by norm_num)

/-- Role table for the normalization counterexample: every mandatory role a
weight-1 singleton, except `single` with five candidates whose integer
weights sum to 10^7 and whose normalized values each round downward. -/
def rolesC6 : RoleVariants Unit :=
  [("center", [mkUnitEntry "center" 1]),
   ("outer_tl", [mkUnitEntry "outer_tl" 1]),
   ("outer_top", [mkUnitEntry "outer_top" 1]),
   ("outer_tr", [mkUnitEntry "outer_tr" 1]),
   ("outer_left", [mkUnitEntry "outer_left" 1]),
   ("outer_right", [mkUnitEntry "outer_right" 1]),
   ("outer_bl", [mkUnitEntry "outer_bl" 1]),
   ("outer_bottom", [mkUnitEntry "outer_bottom" 1]),
   ("outer_br", [mkUnitEntry "outer_br" 1]),
   ("inner_a", [mkUnitEntry "inner_a" 1]),
   ("inner_b", [mkUnitEntry "inner_b" 1]),
   ("inner_c", [mkUnitEntry "inner_c" 1]),
   ("inner_d", [mkUnitEntry "inner_d" 1]),
   ("single", [mkUnitEntry "single" 1000004, mkUnitEntry "single" 1000004,
               mkUnitEntry "single" 2000004, mkUnitEntry "single" 2000004,
               mkUnitEntry "single" 3999984])]

/-- C6 counterexample: a reachable five-variant mask-0 scenario (positive
pre-normalization weight sum 10^7) whose recorded post-normalization
weights sum to 0.999998, off from 1 by 2·10⁻⁶ > 10⁻⁶. -/
theorem c6_normalization_counterexample :
    ((List.range (variant_count_for_mask 0 rolesC6 none)).mapM
        (fun vi => generate_single_variant () (fun a _ => a) 0 rolesC6 vi 42 2)).map
      (fun raw => (raw.map (fun v => v.weight)).sum) = some 10000000 ∧
    (0 : ℚ) < 10000000 ∧
    (generate_for_mask () (fun a _ => a) rolesC6 0 none 42 2).map
      (fun vs => (vs.map (fun v => v.weight)).sum) = some (499999 / 500000) ∧
    ¬ |(499999 / 500000 : ℚ) - 1| ≤ 1 / 1000000 := by
  have hk : variant_count_for_mask 0 rolesC6 none = 5 := rfl
  have hL1 : (List.range 5).mapM
      (fun vi => generate_single_variant () (fun a _ => a) 0 rolesC6 vi 42 2)
      = some [⟨unitImg, 2000004⟩, ⟨unitImg, 3999984⟩, ⟨unitImg, 1000004⟩,
              ⟨unitImg, 1000004⟩, ⟨unitImg, 2000004⟩] := rfl
  have hsum : (([⟨unitImg, (2000004 : ℚ)⟩, ⟨unitImg, 3999984⟩, ⟨unitImg, 1000004⟩,
      ⟨unitImg, 1000004⟩, ⟨unitImg, 2000004⟩] : List (TileVariant Unit)).map
        (fun v => v.weight)).sum = 10000000 := by
    simp only [List.map_cons, List.map_nil, List.sum_cons, List.sum_nil]
    norm_num
  refine ⟨?_, by norm_num, ?_, ?_⟩
  · rw [hk, hL1, Option.map_some']
    rw [hsum]
  · simp only [generate_for_mask, hk, hL1, Option.map_some']
    unfold normalize_weights
    rw [hsum, if_pos (by norm_num : (0 : ℚ) < 10000000)]
    simp only [List.map_cons, List.map_nil, List.sum_cons, List.sum_nil]
    norm_num [round6, roundHalfEven]
  · rw [show |(499999 / 500000 : ℚ) - 1| = 1 / 500000 from by
      rw [abs_sub_comm, abs_of_nonneg (by norm_num : (0 : ℚ) ≤ 1 - 499999 / 500000)]
      norm_num]
    norm_num

/-! ### Exact-copy claims for the isolated and fully-surrounded masks -/

set_option maxRecDepth 2000 in
lemma get_quadrant_role_255 : ∀ q, get_quadrant_role q 255 = ("center", false) := by
  decide

lemma mirror_255 :
    ∀ q, mirror_quadrant q (decide (255 &&& (QUADRANT_RULES q).cardinal1 ≠ 0))
      (decide (255 &&& (QUADRANT_RULES q).cardinal2 ≠ 0)) = q := by
  decide

lemma compose_quadrant_255 {P : Type} (alphaComp : Img P → Img P → Img P)
    (chosen : List (String × Option (SourceEntry P))) (ts : ℕ) (c : SourceEntry P)
    (hc : chosen_lookup chosen "center" = some c) (q : Quadrant) :
    compose_quadrant alphaComp q 255 chosen ts
      = some (extract_quadrant c.image q ts, c.weight) := by
  simp only [compose_quadrant, get_quadrant_role_255, mirror_255, hc]
  simp

/-- The image produced by the general composition loop at mask 255: the
four quadrants of `img`, pasted back at their own offsets over `base`. -/
def reassembledQuadrants {P : Type} (base : Img P) (img : Img P) (ts : ℕ) : Img P :=
  pasteRegion (pasteRegion (pasteRegion (pasteRegion base
    (extract_quadrant img .TL ts) (0 * (ts / 2)) (0 * (ts / 2)) (ts / 2) (ts / 2))
    (extract_quadrant img .TR ts) (1 * (ts / 2)) (0 * (ts / 2)) (ts / 2) (ts / 2))
    (extract_quadrant img .BL ts) (0 * (ts / 2)) (1 * (ts / 2)) (ts / 2) (ts / 2))
    (extract_quadrant img .BR ts) (1 * (ts / 2)) (1 * (ts / 2)) (ts / 2) (ts / 2)

lemma compose_general_255 {P : Type} (transparent : P)
    (alphaComp : Img P → Img P → Img P)
    (chosen : List (String × Option (SourceEntry P))) (ts : ℕ) (c : SourceEntry P)
    (hc : chosen_lookup chosen "center" = some c) :
    compose_general transparent alphaComp 255 chosen ts
      = some (reassembledQuadrants (fun _ _ => transparent) c.image ts,
              1 * c.weight * c.weight * c.weight * c.weight) := by
  have hq := compose_quadrant_255 alphaComp chosen ts c hc
  simp only [compose_general, quadrantList, List.foldlM_cons, List.foldlM_nil, hq,
    QUADRANT_OFFSETS, Option.bind_some, Option.pure_def, Option.bind_eq_bind]
  rfl

/-- Pasting the four quadrants of `img` back into their own positions
reproduces `img` on the whole (even) tile. -/
lemma paste_four_quadrants {P : Type} (base : Img P) (img : Img P) (ts : ℕ)
    (hts : ts % 2 = 0) :
    ∀ x, x < ts → ∀ y, y < ts → reassembledQuadrants base img ts x y = img x y := by
  intro x hx y hy
  have h2 : ts / 2 * 2 = ts := Nat.div_mul_cancel (Nat.dvd_of_mod_eq_zero hts)
  simp only [reassembledQuadrants, pasteRegion, extract_quadrant, cropAt,
    QUADRANT_OFFSETS, one_mul, zero_mul]
  split_ifs with h1 h3 h4 h5 <;>
    first
      | (exfalso; omega)
      | (have hxa : ∀ a b : ℕ, a = b → ∀ c d : ℕ, c = d → img a c = img b d := by
           intro a b hab cc d hcd
           rw [hab, hcd]
         apply hxa <;> omega)

/-- C7: two independent conditionals over any role table with distinct
keys: whenever `single` has exactly one candidate `e`, the mask-0 variant
is a direct copy of `e` (pixels and pre-normalization weight); whenever
`center` has exactly one candidate `c` (and the tile size is even, as the
loader guarantees), the mask-255 variant 0's pixels equal `c`'s pixels on
the whole tile; and weight normalization never changes pixels, so the
same holds for the variant-0 entries recorded by the builder. -/
theorem c7_exact_copy_masks {P : Type} (transparent : P)
    (alphaComp : Img P → Img P → Img P) (roles : RoleVariants P)
    (e c : SourceEntry P) (seed : ℤ) (ts : ℕ)
    (hnd : (roles.map Prod.fst).Nodup) :
    (("single", [e]) ∈ roles →
      generate_single_variant transparent alphaComp 0 roles 0 seed ts
        = some ⟨e.image, e.weight⟩) ∧
    (("center", [c]) ∈ roles → ts % 2 = 0 →
      ∃ v, generate_single_variant transparent alphaComp 255 roles 0 seed ts = some v ∧
        ∀ x, x < ts → ∀ y, y < ts → v.image x y = c.image x y) ∧
    (∀ l : List (TileVariant P), (normalize_weights l).map (fun v => v.image)
        = l.map (fun v => v.image)) := by
  refine ⟨?_, ?_, ?_⟩
  · intro hsingle
    have hs := chosen_lookup_pick roles "single" e hnd hsingle 0 seed
    simp only [generate_single_variant]
    rw [if_pos trivial, hs, Option.map_some']
  · intro hcenter hts
    have hc := chosen_lookup_pick roles "center" c hnd hcenter 0 seed
    have hcg := compose_general_255 transparent alphaComp (pick_per_role roles 0 seed) ts c hc
    refine ⟨⟨reassembledQuadrants (fun _ _ => transparent) c.image ts,
             1 * c.weight * c.weight * c.weight * c.weight⟩, ?_, ?_⟩
    · simp only [generate_single_variant]
      rw [if_neg (by decide : ¬ (255 : ℕ) = 0)]
      rw [if_neg (by rintro ⟨h85, -⟩; exact absurd h85 (by decide))]
      rw [hcg, Option.map_some']
    · intro x hx y hy
      exact paste_four_quadrants (fun _ _ => transparent) c.image ts hts x hx y hy
  · intro l
    simp only [normalize_weights]
    split_ifs
    · simp [List.map_map]
    · rfl

/-- C7 witness: both conditionals discharged on the concrete all-singleton
table at tile size 2. -/
theorem c7_exact_copy_masks_witness :
    generate_single_variant () (fun a _ => a) 0 rolesC5 0 42 2
      = some ⟨(mkUnitEntry "single" 1).image, (mkUnitEntry "single" 1).weight⟩ ∧
    (∃ v, generate_single_variant () (fun a _ => a) 255 rolesC5 0 42 2 = some v ∧
      ∀ x, x < 2 → ∀ y, y < 2 → v.image x y = (mkUnitEntry "center" 1).image x y) :=
  ⟨(c7_exact_copy_masks () (fun a _ => a) rolesC5 (mkUnitEntry "single" 1)
      (mkUnitEntry "center" 1) 42 2 (by decide)).1
      (by simp [rolesC5, REQUIRED_ROLES]),
   (c7_exact_copy_masks () (fun a _ => a) rolesC5 (mkUnitEntry "single" 1)
      (mkUnitEntry "center" 1) 42 2 (by decide)).2.1
      (by simp [rolesC5, REQUIRED_ROLES]) (by decide)⟩

/-! ### RuntimeVariantPicker claims -/

/-- The pick loop returns the first variant whose inclusive prefix sum
(started from `acc`) exceeds `t`, and the fallback otherwise. -/
lemma pickLoop_eq_find {P : Type} (t : ℚ) (fallback : TileVariant P) :
    ∀ (l : List (TileVariant P)) (acc : ℚ),
      pickLoop t fallback acc l =
        (match (l.zip (inclPrefixSums acc l)).find? (fun vc => decide (t < vc.2)) with
         | some vc => vc.1
         | none => fallback) := by
  intro l
  induction l with
  | nil => intro acc; rfl
  | cons v rest ih =>
    intro acc
    simp only [pickLoop, inclPrefixSums, List.zip_cons_cons, List.find?]
    by_cases h : t < acc + v.weight
    · simp [h]
    · rw [decide_eq_false h, if_neg h]
      simpa [List.zip] using ih (acc + v.weight)

/-- C8 (amended): the position hash is masked to 32 bits and normalized
into the closed interval [0, 1] (dividing by 2³²−1, so the value 1 is
attained exactly when the masked hash is 2³²−1, and [0,1) does not hold in
general), and the pick walk returns the first variant whose running
weight sum exceeds the hash value, falling back to the first variant. -/
theorem c8_picker_amended {P : Type} :
    (∀ x y : ℕ, 0 ≤ t_of_position x y ∧ t_of_position x y ≤ 1) ∧
    (∀ (variants : List (TileVariant P)) (t : ℚ),
      pick_variant variants t = pick_variant_spec variants t) := by
  constructor
  · intro x y
    constructor
    · unfold t_of_position
      positivity
    · unfold t_of_position
      rw [div_le_one (by norm_num)]
      exact_mod_cast Nat.and_le_right
  · intro variants t
    cases variants with
    | nil => rfl
    | cons v rest =>
      simp only [pick_variant, pick_variant_spec]
      rw [pickLoop_eq_find]
      cases hf : ((v :: rest).zip (inclPrefixSums 0 (v :: rest))).find?
          (fun vc => decide (t < vc.2)) with
      | none => simp
      | some vc => simp

/-- C8 counterexample: at the integer position
(3567878155, 0) the masked 32-bit hash equals 2³²−1, so the normalized
value is exactly 1, outside the claimed half-open interval [0, 1). -/
theorem c8_picker_counterexample :
    t_of_position 3567878155 0 = 1 ∧ ¬ t_of_position 3567878155 0 < 1 := by
  have h : hash_position 3567878155 0 &&& 0xFFFFFFFF = 0xFFFFFFFF := by decide
  have h1 : t_of_position 3567878155 0 = 1 := by
    unfold t_of_position
    rw [h]
    norm_num
  exact ⟨h1, by rw [h1]; exact lt_irrefl 1⟩

/-! ### Full-run determinism -/

lemma genMasksList_fst {P : Type} (transparent : P)
    (alphaComp : Img P → Img P → Img P) (roles : RoleVariants P)
    (cap : Option ℕ) (seed : ℤ) (ts : ℕ) :
    ∀ (bms : List ℕ) out,
      genMasksList transparent alphaComp roles cap seed ts bms = some out →
      out.map Prod.fst = bms := by
  intro bms
  induction bms with
  | nil =>
    intro out h
    simp only [genMasksList, Option.some.injEq] at h
    rw [← h]
    rfl
  | cons m rest ih =>
    intro out h
    simp only [genMasksList] at h
    cases hg : generate_for_mask transparent alphaComp roles m cap seed ts with
    | none => rw [hg] at h; simp at h
    | some vs =>
      rw [hg] at h
      cases hr : genMasksList transparent alphaComp roles cap seed ts rest with
      | none => rw [hr] at h; simp at h
      | some tail =>
        rw [hr] at h
        simp at h
        rw [← h]
        simp [ih tail hr]

set_option maxRecDepth 100000 in
lemma canonicalMasks_sorted : List.Sorted (· < ·) canonicalMasks := by
  decide

/-- C9: the generation pipeline is a pure function, so two runs with equal
role table, seed, cap, tile size and layout convention produce identical
variant sets, atlas pixels and index documents; masks are processed in the
strictly ascending canonical order, and the variant-set keys are exactly
the canonical masks in that order. -/
theorem c9_full_run_determinism {P : Type} (transparent transparent2 : P)
    (alphaComp alphaComp2 : Img P → Img P → Img P)
    (roles roles2 : RoleVariants P) (cap cap2 : Option ℕ) (seed seed2 : ℤ)
    (ts ts2 : ℕ) (layout layout2 : String)
    (h1 : transparent = transparent2) (h2 : alphaComp = alphaComp2)
    (h3 : roles = roles2) (h4 : cap = cap2) (h5 : seed = seed2)
    (h6 : ts = ts2) (h7 : layout = layout2) :
    run_generation transparent alphaComp roles cap seed ts layout
      = run_generation transparent2 alphaComp2 roles2 cap2 seed2 ts2 layout2 ∧
    List.Sorted (· < ·) canonicalMasks ∧
    (∀ out gmax,
      generate_all_variants transparent alphaComp roles canonicalMasks cap seed ts
        = some (out, gmax) → out.map Prod.fst = canonicalMasks) := by
  subst h1 h2 h3 h4 h5 h6 h7
  refine ⟨rfl, canonicalMasks_sorted, ?_⟩
  intro out gmax hout
  unfold generate_all_variants at hout
  cases hg : genMasksList transparent alphaComp roles cap seed ts canonicalMasks with
  | none => rw [hg] at hout; simp at hout
  | some l =>
    rw [hg] at hout
    simp only [Option.map_some', Option.some.injEq, Prod.mk.injEq] at hout
    rw [← hout.1]
    exact genMasksList_fst transparent alphaComp roles cap seed ts canonicalMasks l hg

/-- C9 witness: two identical concrete runs coincide. -/
theorem c9_full_run_determinism_witness :
    run_generation () (fun a _ => a) rolesC5 none 42 2 "variants_y"
      = run_generation () (fun a _ => a) rolesC5 none 42 2 "variants_y" ∧
    List.Sorted (· < ·) canonicalMasks ∧
    (∀ out gmax,
      generate_all_variants () (fun a _ => a) rolesC5 canonicalMasks none 42 2
        = some (out, gmax) → out.map Prod.fst = canonicalMasks) :=
  c9_full_run_determinism () () (fun a _ => a) (fun a _ => a) rolesC5 rolesC5
    none none 42 42 2 2 "variants_y" "variants_y" rfl rfl rfl rfl rfl rfl rfl

/-! ### Test-map cell masks are canonical -/

set_option maxRecDepth 100000 in
lemma canonicalMasks_eq :
    canonicalMasks = [0, 1, 4, 5, 7, 16, 17, 20, 21, 23, 28, 29, 31, 64, 65,
      68, 69, 71, 80, 81, 84, 85, 87, 92, 93, 95, 112, 113, 116, 117, 119,
      124, 125, 127, 193, 197, 199, 209, 213, 215, 221, 223, 241, 245, 247,
      253, 255] := by
  decide

set_option maxRecDepth 4000 in
lemma cellMaskCore_fixed :
    ∀ bN bE bS bW bNE bSE bSW bNW,
      reduce_bitmask (cellMaskCore bN bE bS bW bNE bSE bSW bNW)
        = cellMaskCore bN bE bS bW bNE bSE bSW bNW := by
  decide

set_option maxRecDepth 4000 in
lemma cellMaskCore_mem :
    ∀ bN bE bS bW bNE bSE bSW bNW,
      cellMaskCore bN bE bS bW bNE bSE bSW bNW ∈
        [0, 1, 4, 5, 7, 16, 17, 20, 21, 23, 28, 29, 31, 64, 65,
         68, 69, 71, 80, 81, 84, 85, 87, 92, 93, 95, 112, 113, 116, 117, 119,
         124, 125, 127, 193, 197, 199, 209, 213, 215, 221, 223, 241, 245, 247,
         253, 255] := by
  decide

/-- C10: for every grid pattern and cell, the neighbor mask computed by
`_compute_cell_mask` is a fixed point of `reduce_bitmask` (diagonal bits
are set only when both adjacent cardinals are), hence one of the 47
canonical masks that key the generated variant set. -/
theorem c10_cell_mask_canonical :
    ∀ (pattern : List (List ℕ)) (y x : ℤ),
      reduce_bitmask (compute_cell_mask pattern y x) = compute_cell_mask pattern y x ∧
      compute_cell_mask pattern y x ∈ canonicalMasks := by
  intro pattern y x
  unfold compute_cell_mask
  refine ⟨cellMaskCore_fixed _ _ _ _ _ _ _ _, ?_⟩
  rw [canonicalMasks_eq]
  exact cellMaskCore_mem _ _ _ _ _ _ _ _

end Autotile47
